import Mathlib

/-!
Shallow embedding of `tools/convert_logo_raw.py` (a PIL-based converter that
composites a decoded logo image centered on a white canvas and serializes the
canvas as little-endian `0x00RRGGBB` 32-bit words), together with proofs of the
specified properties.

Modelling decisions, each noted at the definition it concerns:
* Python float arithmetic is modelled over ℚ; the literal `0.8` is modelled as
  `4/5`.  Python `int(...)` truncates toward zero (`pyInt`), Python `//` is
  floor division (`Int.fdiv`).
* The Lanczos resampling kernel of `Image.resize` is a parameter of the
  pipeline (`resample`); Pillow's guarantees about `resize` — the result has
  exactly the requested dimensions, and empty dimensions are rejected with an
  error — are part of the model (`pilResize`).
* Pillow's alpha-masked `paste` blends with the `BLEND`/`MULDIV255` integer
  macros from `Paste.c`; these are modelled exactly (`muldiv255`, `blend`).
* File I/O is modelled by returning the list of output bytes; a raised
  exception is `none`.
-/

namespace LogoRaw

/-- One RGBA sample as Pillow stores it; channels are naturals (bytes 0..255
in any decoded image). -/
structure RGBA where
  r : ℕ
  g : ℕ
  b : ℕ
  a : ℕ
deriving DecidableEq

/-- A decoded raster image: its dimensions and a pixel lookup
(column first, row second, matching the Python `pixels[col, row]`). -/
structure Img where
  width : ℕ
  height : ℕ
  pix : ℕ → ℕ → RGBA

/-- Pure white, fully opaque: the canvas fill `(255, 255, 255, 255)` (line 22). -/
def white : RGBA := ⟨255, 255, 255, 255⟩

/-- Python `Image.new('RGBA', (w, h), c)`: a constant-colour image (line 22). -/
def imageNew (w h : ℕ) (c : RGBA) : Img := ⟨w, h, fun _ _ => c⟩

/-- The decoded source image (`Image.open`, line 25): RGBA sample data plus
whether the decoded mode carries an alpha channel.  For modes without an
alpha channel, `convert('RGBA')` synthesizes a fully opaque one. -/
structure Decoded where
  img : Img
  hasAlpha : Bool

/-- Python `logo.convert('RGBA')` on a mode lacking an alpha channel:
keep the colour samples and synthesize a fully opaque alpha (lines 28-29). -/
def convertRGBA (img : Img) : Img :=
  { img with pix := fun c r => { img.pix c r with a := 255 } }

/-- The image actually composited: the decoded image, run through
`convert('RGBA')` when its mode lacks an alpha channel (lines 28-29). -/
def rgbaLogo (logo0 : Decoded) : Img :=
  if logo0.hasAlpha then logo0.img else convertRGBA logo0.img

/-- Pillow's `MULDIV255` macro from `Paste.c`: division of `x * y` by 255 with
rounding, computed as `tmp := x*y + 128; ((tmp >> 8) + tmp) >> 8`. -/
def muldiv255 (x y : ℕ) : ℕ :=
  let t := x * y + 128
  (t / 256 + t) / 256

/-- Pillow's `BLEND` macro: `dst*(255-mask)/255 + src*mask/255`, each product
divided by 255 with rounding. -/
def blend (mask dst src : ℕ) : ℕ :=
  muldiv255 dst (255 - mask) + muldiv255 src mask

/-- Python `background.paste(logo, (x, y), logo)` (line 48): write the logo
onto the background at offset `(x, y)`, blending every channel with the
logo's own alpha channel as the per-pixel mask; pixels outside the pasted
rectangle are untouched. -/
def paste (bg logo : Img) (x y : ℤ) : Img :=
  { width := bg.width, height := bg.height,
    pix := fun c r =>
      if x ≤ (c : ℤ) ∧ (c : ℤ) < x + logo.width ∧
          y ≤ (r : ℤ) ∧ (r : ℤ) < y + logo.height then
        let s := logo.pix ((c : ℤ) - x).toNat ((r : ℤ) - y).toNat
        let d := bg.pix c r
        ⟨blend s.a d.r s.r, blend s.a d.g s.g, blend s.a d.b s.b,
          blend s.a d.a s.a⟩
      else
        bg.pix c r }

/-- Python `int(q)` for a float value, modelled on ℚ: truncation toward zero
(T-division of the numerator by the denominator). -/
def pyInt (q : ℚ) : ℤ := Int.tdiv q.num (q.den : ℤ)

/-- The scale factor of line 37: `min(width / logo_width, height / logo_height)
* 0.8`, modelled over ℚ with `0.8` as `4/5`. -/
def scaleFactor (lw lh w h : ℕ) : ℚ :=
  min ((w : ℚ) / (lw : ℚ)) ((h : ℚ) / (lh : ℚ)) * (4 / 5)

/-- One resized dimension (lines 38-39): `int(d * scale)`. -/
def scaledDim (d : ℕ) (scale : ℚ) : ℕ := (pyInt ((d : ℚ) * scale)).toNat

/-- The pixel data produced by `logo.resize(..., Image.Resampling.LANCZOS)` is
not modelled (it is float resampling); it is a parameter of the pipeline.
`Resample img w h` is the pixel lookup of `img` resized to `w × h`. -/
def Resample : Type := Img → ℕ → ℕ → ℕ → ℕ → RGBA

/-- Pillow `Image.resize` (line 40): produces an image of exactly the
requested dimensions, except that a zero requested width or height raises
`ValueError: height and width must be > 0`, modelled as `none`. -/
def pilResize (resample : Resample) (img : Img) (w h : ℕ) : Option Img :=
  if w = 0 ∨ h = 0 then none
  else some ⟨w, h, resample img w h⟩

/-- Lines 35-41: scale the logo down iff it is wider or taller than the
canvas, by the truncated scaled dimensions; otherwise keep it unchanged. -/
def placedLogo (resample : Resample) (logo : Img) (w h : ℕ) : Option Img :=
  if w < logo.width ∨ h < logo.height then
    pilResize resample logo
      (scaledDim logo.width (scaleFactor logo.width logo.height w h))
      (scaledDim logo.height (scaleFactor logo.width logo.height w h))
  else
    some logo

/-- The state of the conversion after the paste (line 48): the possibly
resized logo, its placement offsets, and the composited RGBA canvas. -/
structure Composited where
  placed : Img
  x : ℤ
  y : ℤ
  canvas : Img

/-- Lines 22-48 of `convert_logo_to_raw`: build the white canvas, convert the
logo to RGBA, conditionally scale it down, center it (Python `//` is floor
division, `Int.fdiv`), and alpha-paste it onto the canvas. -/
def composite (resample : Resample) (logo0 : Decoded) (w h : ℕ) :
    Option Composited :=
  match placedLogo resample (rgbaLogo logo0) w h with
  | none => none
  | some logo =>
      let x : ℤ := Int.fdiv ((w : ℤ) - (logo.width : ℤ)) 2
      let y : ℤ := Int.fdiv ((h : ℤ) - (logo.height : ℤ)) 2
      some ⟨logo, x, y, paste (imageNew w h white) logo x y⟩

/-- Python `background.convert('RGB')` (line 51): drop the alpha band,
keeping the colour samples unchanged. -/
def convertRGB (img : Img) : ℕ → ℕ → ℕ × ℕ × ℕ :=
  fun c r => ((img.pix c r).r, (img.pix c r).g, (img.pix c r).b)

/-- Line 58: `(r << 16) | (g << 8) | b`. -/
def pixelValue (r g b : ℕ) : ℕ := ((r <<< 16) ||| (g <<< 8)) ||| b

/-- Python `struct.pack('<I', v)` (line 59): the four little-endian bytes. -/
def packLE (v : ℕ) : List ℕ :=
  [v % 256, v / 256 % 256, v / 65536 % 256, v / 16777216 % 256]

/-- The write loop of lines 54-59: rows top to bottom, columns left to right,
four bytes per pixel. -/
def encodePixels (pix : ℕ → ℕ → ℕ × ℕ × ℕ) (w h : ℕ) : List ℕ :=
  (List.range h).flatMap fun row =>
    (List.range w).flatMap fun col =>
      packLE (pixelValue (pix col row).1 (pix col row).2.1 (pix col row).2.2)

/-- The whole of `convert_logo_to_raw` (lines 11-61): returns the bytes
written to the output file, or `none` when a step raised. -/
def convert_logo_to_raw (resample : Resample) (logo0 : Decoded) (w h : ℕ) :
    Option (List ℕ) :=
  (composite resample logo0 w h).map fun res =>
    encodePixels (convertRGB res.canvas) w h

/-- The `main` function (lines 70-79): it checks that the input path exists
before any decoding or processing, and returns `1` without touching the
output file when it does not.  The result is the process exit status paired
with the output file's contents when one was written; an exception escaping
`convert_logo_to_raw` makes the interpreter exit nonzero with no complete
output, modelled by the `none` branch. -/
def main (inputExists : Bool) (conv : Option (List ℕ)) :
    ℤ × Option (List ℕ) :=
  if inputExists then
    match conv with
    | some bytes => (0, some bytes)
    | none => (1, none)
  else
    (1, none)

/-- Channel values of a decoded Pillow image are bytes. -/
def RGBA.Wf (p : RGBA) : Prop := p.r ≤ 255 ∧ p.g ≤ 255 ∧ p.b ≤ 255 ∧ p.a ≤ 255

/-- Every sample of the image is made of byte-sized channels. -/
def Img.Wf (img : Img) : Prop := ∀ c r, (img.pix c r).Wf

/-- A resampling kernel keeps channels byte-sized (true of Pillow's
resampling, which clips its output to the 0..255 range). -/
def ResampleWf (resample : Resample) : Prop :=
  ∀ img w h c r, (resample img w h c r).Wf

/-! Helper lemmas about the blending arithmetic. -/

theorem muldiv255_zero_right (x : ℕ) : muldiv255 x 0 = 0 := by
  simp [muldiv255]

set_option maxRecDepth 4096 in
theorem muldiv255_255_left : ∀ y, y ≤ 255 → muldiv255 255 y = y := by decide

theorem muldiv255_mono_left {x x' : ℕ} (y : ℕ) (h : x ≤ x') :
    muldiv255 x y ≤ muldiv255 x' y := by
  have h1 : x * y + 128 ≤ x' * y + 128 :=
    Nat.add_le_add_right (Nat.mul_le_mul_right y h) 128
  exact Nat.div_le_div_right (Nat.add_le_add (Nat.div_le_div_right h1) h1)

theorem muldiv255_le {x : ℕ} (y : ℕ) (hx : x ≤ 255) (hy : y ≤ 255) :
    muldiv255 x y ≤ y := by
  calc muldiv255 x y ≤ muldiv255 255 y := muldiv255_mono_left y hx
    _ = y := muldiv255_255_left y hy

theorem blend_le {mask dst src : ℕ} (hm : mask ≤ 255) (hd : dst ≤ 255)
    (hs : src ≤ 255) : blend mask dst src ≤ 255 := by
  have h1 : muldiv255 dst (255 - mask) ≤ 255 - mask :=
    muldiv255_le (255 - mask) hd (by omega)
  have h2 : muldiv255 src mask ≤ mask := muldiv255_le mask hs hm
  unfold blend
  omega

theorem blend_zero_mask (src : ℕ) : blend 0 255 src = 255 := by
  have h1 : muldiv255 src 0 = 0 := muldiv255_zero_right src
  have h2 : muldiv255 255 (255 - 0) = 255 := by decide
  unfold blend
  omega

/-! Helper lemmas about the byte encoding. -/

theorem shiftLeft_lor_eq_add (n : ℕ) : ∀ a b : ℕ, b < 2 ^ n →
    (a <<< n) ||| b = a * 2 ^ n + b := by
  induction n with
  | zero =>
    intro a b hb
    have h1 : (2 : ℕ) ^ 0 = 1 := rfl
    have hb0 : b = 0 := by omega
    subst hb0
    simp [Nat.shiftLeft_eq]
  | succ n ih =>
    intro a b hb
    have hdiv : b / 2 < 2 ^ n := by
      have h2 : (2 : ℕ) ^ (n + 1) = 2 * 2 ^ n := by ring
      omega
    have h1 : a <<< (n + 1) = Nat.bit false (a <<< n) := by
      rw [Nat.bit_val, Nat.shiftLeft_succ]
      simp
    have h2 : Nat.bit b.bodd b.div2 = b := Nat.bit_decomp b
    rw [h1, ← h2, Nat.lor_bit, Bool.false_or, Nat.div2_val,
      ih a (b / 2) hdiv, Nat.bit_val, Nat.bit_val, pow_succ]
    ring

theorem pixelValue_eq {r g b : ℕ} (hr : r ≤ 255) (hg : g ≤ 255)
    (hb : b ≤ 255) : pixelValue r g b = 65536 * r + 256 * g + b := by
  unfold pixelValue
  rw [Nat.lor_assoc]
  have hb8 : b < 2 ^ 8 := lt_of_le_of_lt hb (by norm_num)
  have h1 : (g <<< 8) ||| b = g * 256 + b := by
    simpa using shiftLeft_lor_eq_add 8 g b hb8
  rw [h1]
  have h2 : g * 256 + b < 2 ^ 16 := by
    have : g * 256 + b < 65536 := by omega
    simpa using this
  have h3 := shiftLeft_lor_eq_add 16 r (g * 256 + b) h2
  rw [h3]
  norm_num
  ring

theorem pixelValue_lt {r g b : ℕ} (hr : r ≤ 255) (hg : g ≤ 255)
    (hb : b ≤ 255) : pixelValue r g b < 16777216 := by
  rw [pixelValue_eq hr hg hb]
  omega

theorem packLE_length (v : ℕ) : (packLE v).length = 4 := rfl

theorem flatMap_length_const {α : Type} (f : α → List ℕ) (K : ℕ) :
    ∀ l : List α, (∀ a ∈ l, (f a).length = K) →
    (l.flatMap f).length = l.length * K := by
  intro l
  induction l with
  | nil => simp
  | cons a l ih =>
    intro hf
    simp only [List.flatMap_cons, List.length_append, List.length_cons]
    rw [hf a (by simp), ih (fun x hx => hf x (by simp [hx]))]
    ring

theorem flatMap_getElem_add {α : Type} (f : α → List ℕ) (K : ℕ) :
    ∀ (l : List α), (∀ a ∈ l, (f a).length = K) →
    ∀ (i j : ℕ) (hi : i < l.length), j < K →
    (l.flatMap f)[i * K + j]? = (f (l.get ⟨i, hi⟩))[j]? := by
  intro l
  induction l with
  | nil => intro _ i j hi _; exact absurd hi (by simp)
  | cons a l ih =>
    intro hf i j hi hj
    cases i with
    | zero =>
      simp only [List.flatMap_cons, Nat.zero_mul, Nat.zero_add, List.get]
      rw [List.getElem?_append_left]
      rw [hf a (by simp)]
      exact hj
    | succ i =>
      have hK : (i + 1) * K = i * K + K := by ring
      simp only [List.flatMap_cons, List.get]
      rw [List.getElem?_append_right]
      · rw [hf a (by simp)]
        have hsub : (i + 1) * K + j - K = i * K + j := by omega
        rw [hsub]
        exact ih (fun x hx => hf x (by simp [hx])) i j (by simpa using hi) hj
      · rw [hf a (by simp)]
        omega

theorem encodePixels_length (pix : ℕ → ℕ → ℕ × ℕ × ℕ) (w h : ℕ) :
    (encodePixels pix w h).length = w * h * 4 := by
  unfold encodePixels
  rw [flatMap_length_const _ (w * 4) _ ?_]
  · rw [List.length_range]; ring
  · intro row _
    rw [flatMap_length_const _ 4 _ (fun col _ => packLE_length _)]
    rw [List.length_range]

theorem encodePixels_getElem (pix : ℕ → ℕ → ℕ × ℕ × ℕ) (w h row col j : ℕ)
    (hrow : row < h) (hcol : col < w) (hj : j < 4) :
    (encodePixels pix w h)[4 * (row * w + col) + j]? =
      (packLE (pixelValue (pix col row).1 (pix col row).2.1
        (pix col row).2.2))[j]? := by
  unfold encodePixels
  have hrow' : row < (List.range h).length := by simpa using hrow
  have hcol' : col < (List.range w).length := by simpa using hcol
  have hlen : ∀ r ∈ List.range h,
      ((List.range w).flatMap fun col =>
        packLE (pixelValue (pix col r).1 (pix col r).2.1
          (pix col r).2.2)).length = w * 4 := by
    intro r _
    rw [flatMap_length_const _ 4 _ (fun c _ => packLE_length _)]
    rw [List.length_range]
  have hidx : 4 * (row * w + col) + j = row * (w * 4) + (col * 4 + j) := by
    ring
  have hjlt : col * 4 + j < w * 4 := by
    have : (col + 1) * 4 ≤ w * 4 := Nat.mul_le_mul_right 4 hcol
    omega
  rw [hidx, flatMap_getElem_add _ (w * 4) _ hlen row (col * 4 + j) hrow' hjlt]
  have hget1 : (List.range h).get ⟨row, hrow'⟩ = row := by
    simp
  rw [hget1,
    flatMap_getElem_add _ 4 _ (fun c _ => packLE_length _) col j hcol' hj]
  have hget2 : (List.range w).get ⟨col, hcol'⟩ = col := by
    simp
  rw [hget2]

/-! Helper lemmas about the scale arithmetic. -/

theorem pyInt_eq_floor (q : ℚ) (h : 0 ≤ q) : pyInt q = ⌊q⌋ := by
  unfold pyInt
  rw [Rat.floor_def]
  exact Int.tdiv_eq_ediv (Rat.num_nonneg.mpr h) (by positivity)

theorem scaledDim_zero (s : ℚ) : scaledDim 0 s = 0 := by
  unfold scaledDim pyInt
  norm_num

theorem scaleFactor_nonneg (lw lh w h : ℕ) : 0 ≤ scaleFactor lw lh w h := by
  unfold scaleFactor
  have h1 : (0 : ℚ) ≤ (w : ℚ) / (lw : ℚ) := by positivity
  have h2 : (0 : ℚ) ≤ (h : ℚ) / (lh : ℚ) := by positivity
  have h3 : (0 : ℚ) ≤ min ((w : ℚ) / (lw : ℚ)) ((h : ℚ) / (lh : ℚ)) :=
    le_min h1 h2
  nlinarith

theorem scaledDim_le_aux (d w : ℕ) (s : ℚ) (hs0 : 0 ≤ s)
    (hle : (d : ℚ) * s ≤ 4 * w / 5) : 5 * scaledDim d s ≤ 4 * w := by
  have hq0 : 0 ≤ (d : ℚ) * s := by positivity
  unfold scaledDim
  rw [pyInt_eq_floor _ hq0]
  have hfl0 : 0 ≤ ⌊(d : ℚ) * s⌋ := Int.floor_nonneg.mpr hq0
  have hfl : (⌊(d : ℚ) * s⌋ : ℚ) ≤ 4 * w / 5 := le_trans (Int.floor_le _) hle
  have h5 : (5 * ⌊(d : ℚ) * s⌋ : ℤ) ≤ 4 * w := by
    have h6 : (5 : ℚ) * ⌊(d : ℚ) * s⌋ ≤ 5 * (4 * w / 5) :=
      mul_le_mul_of_nonneg_left hfl (by norm_num)
    have h7 : (5 : ℚ) * (4 * w / 5) = 4 * w := by ring
    rw [h7] at h6
    exact_mod_cast h6
  have h8 : (⌊(d : ℚ) * s⌋.toNat : ℤ) = ⌊(d : ℚ) * s⌋ :=
    Int.toNat_of_nonneg hfl0
  omega

theorem scaledDim_width_bound (lw lh w h : ℕ) (hlw : 0 < lw) :
    5 * scaledDim lw (scaleFactor lw lh w h) ≤ 4 * w := by
  apply scaledDim_le_aux lw w _ (scaleFactor_nonneg lw lh w h)
  unfold scaleFactor
  have hlw' : (0 : ℚ) < (lw : ℚ) := by exact_mod_cast hlw
  have hmin : min ((w : ℚ) / (lw : ℚ)) ((h : ℚ) / (lh : ℚ)) ≤
      (w : ℚ) / (lw : ℚ) := min_le_left _ _
  calc (lw : ℚ) * (min ((w : ℚ) / (lw : ℚ)) ((h : ℚ) / (lh : ℚ)) * (4 / 5))
      ≤ (lw : ℚ) * ((w : ℚ) / (lw : ℚ) * (4 / 5)) := by
        apply mul_le_mul_of_nonneg_left _ (le_of_lt hlw')
        exact mul_le_mul_of_nonneg_right hmin (by norm_num)
    _ = 4 * w / 5 := by field_simp; ring

theorem scaledDim_height_bound (lw lh w h : ℕ) (hlh : 0 < lh) :
    5 * scaledDim lh (scaleFactor lw lh w h) ≤ 4 * h := by
  apply scaledDim_le_aux lh h _ (scaleFactor_nonneg lw lh w h)
  unfold scaleFactor
  have hlh' : (0 : ℚ) < (lh : ℚ) := by exact_mod_cast hlh
  have hmin : min ((w : ℚ) / (lw : ℚ)) ((h : ℚ) / (lh : ℚ)) ≤
      (h : ℚ) / (lh : ℚ) := min_le_right _ _
  calc (lh : ℚ) * (min ((w : ℚ) / (lw : ℚ)) ((h : ℚ) / (lh : ℚ)) * (4 / 5))
      ≤ (lh : ℚ) * ((h : ℚ) / (lh : ℚ) * (4 / 5)) := by
        apply mul_le_mul_of_nonneg_left _ (le_of_lt hlh')
        exact mul_le_mul_of_nonneg_right hmin (by norm_num)
    _ = 4 * h / 5 := by field_simp; ring

/-! Inversion of a successful composite. -/

theorem composite_inv {resample : Resample} {logo0 : Decoded} {w h : ℕ}
    {res : Composited} (hc : composite resample logo0 w h = some res) :
    res.canvas = paste (imageNew w h white) res.placed res.x res.y ∧
    res.x = Int.fdiv ((w : ℤ) - (res.placed.width : ℤ)) 2 ∧
    res.y = Int.fdiv ((h : ℤ) - (res.placed.height : ℤ)) 2 ∧
    ((¬(w < (rgbaLogo logo0).width ∨ h < (rgbaLogo logo0).height) ∧
        res.placed = rgbaLogo logo0) ∨
      ((w < (rgbaLogo logo0).width ∨ h < (rgbaLogo logo0).height) ∧
        res.placed.width = scaledDim (rgbaLogo logo0).width
          (scaleFactor (rgbaLogo logo0).width (rgbaLogo logo0).height w h) ∧
        res.placed.height = scaledDim (rgbaLogo logo0).height
          (scaleFactor (rgbaLogo logo0).width (rgbaLogo logo0).height w h) ∧
        res.placed.width ≠ 0 ∧ res.placed.height ≠ 0 ∧
        res.placed.pix = resample (rgbaLogo logo0) res.placed.width
          res.placed.height)) := by
  unfold composite at hc
  cases hpl : placedLogo resample (rgbaLogo logo0) w h with
  | none => rw [hpl] at hc; exact absurd hc (by simp)
  | some logo =>
    rw [hpl] at hc
    simp only [Option.some.injEq] at hc
    subst hc
    refine ⟨rfl, rfl, rfl, ?_⟩
    unfold placedLogo at hpl
    by_cases hbig : w < (rgbaLogo logo0).width ∨ h < (rgbaLogo logo0).height
    · rw [if_pos hbig] at hpl
      unfold pilResize at hpl
      by_cases hz : scaledDim (rgbaLogo logo0).width
            (scaleFactor (rgbaLogo logo0).width (rgbaLogo logo0).height w h)
              = 0 ∨
          scaledDim (rgbaLogo logo0).height
            (scaleFactor (rgbaLogo logo0).width (rgbaLogo logo0).height w h)
              = 0
      · rw [if_pos hz] at hpl
        exact absurd hpl (by simp)
      · rw [if_neg hz] at hpl
        simp only [Option.some.injEq] at hpl
        subst hpl
        push_neg at hz
        exact Or.inr ⟨hbig, rfl, rfl, hz.1, hz.2, rfl⟩
    · rw [if_neg hbig] at hpl
      simp only [Option.some.injEq] at hpl
      subst hpl
      exact Or.inl ⟨hbig, rfl⟩

theorem placed_le {resample : Resample} {logo0 : Decoded} {w h : ℕ}
    {res : Composited} (hc : composite resample logo0 w h = some res) :
    res.placed.width ≤ w ∧ res.placed.height ≤ h := by
  obtain ⟨-, -, -, hcase⟩ := composite_inv hc
  rcases hcase with ⟨hfit, heq⟩ | ⟨-, hw, hh, hnw, hnh, -⟩
  · push_neg at hfit
    rw [heq]
    exact hfit
  · constructor
    · have hlw : 0 < (rgbaLogo logo0).width := by
        rcases Nat.eq_zero_or_pos (rgbaLogo logo0).width with h0 | h0
        · rw [h0, scaledDim_zero] at hw
          exact absurd hw hnw
        · exact h0
      have := scaledDim_width_bound (rgbaLogo logo0).width
        (rgbaLogo logo0).height w h hlw
      omega
    · have hlh : 0 < (rgbaLogo logo0).height := by
        rcases Nat.eq_zero_or_pos (rgbaLogo logo0).height with h0 | h0
        · rw [h0, scaledDim_zero] at hh
          exact absurd hh hnh
        · exact h0
      have := scaledDim_height_bound (rgbaLogo logo0).width
        (rgbaLogo logo0).height w h hlh
      omega

theorem offsets_nonneg {resample : Resample} {logo0 : Decoded} {w h : ℕ}
    {res : Composited} (hc : composite resample logo0 w h = some res) :
    0 ≤ res.x ∧ 0 ≤ res.y := by
  obtain ⟨-, hx, hy, -⟩ := composite_inv hc
  obtain ⟨hw, hh⟩ := placed_le hc
  constructor
  · rw [hx]
    apply Int.fdiv_nonneg _ (by norm_num)
    omega
  · rw [hy]
    apply Int.fdiv_nonneg _ (by norm_num)
    omega

/-! Well-formedness propagation. -/

theorem white_wf : white.Wf := ⟨le_refl _, le_refl _, le_refl _, le_refl _⟩

theorem rgbaLogo_wf (logo0 : Decoded) (h : logo0.img.Wf) :
    (rgbaLogo logo0).Wf := by
  unfold rgbaLogo
  split
  · exact h
  · intro c r
    obtain ⟨h1, h2, h3, -⟩ := h c r
    exact ⟨h1, h2, h3, le_refl _⟩

theorem paste_wf (bg logo : Img) (x y : ℤ) (hbg : bg.Wf) (hl : logo.Wf) :
    (paste bg logo x y).Wf := by
  intro c r
  unfold paste
  dsimp only
  split
  · obtain ⟨hsr, hsg, hsb, hsa⟩ :=
      hl ((c : ℤ) - x).toNat ((r : ℤ) - y).toNat
    obtain ⟨hdr, hdg, hdb, hda⟩ := hbg c r
    exact ⟨blend_le hsa hdr hsr, blend_le hsa hdg hsg,
      blend_le hsa hdb hsb, blend_le hsa hda hsa⟩
  · exact hbg c r

theorem composite_wf {resample : Resample} {logo0 : Decoded} {w h : ℕ}
    {res : Composited} (hre : ResampleWf resample) (hwf : logo0.img.Wf)
    (hc : composite resample logo0 w h = some res) :
    res.canvas.Wf ∧ res.placed.Wf := by
  obtain ⟨hcv, -, -, hcase⟩ := composite_inv hc
  have hpl : res.placed.Wf := by
    rcases hcase with ⟨-, heq⟩ | ⟨-, -, -, -, -, hpix⟩
    · rw [heq]
      exact rgbaLogo_wf _ hwf
    · intro c r
      rw [hpix]
      exact hre _ _ _ _ _
  refine ⟨?_, hpl⟩
  rw [hcv]
  exact paste_wf _ _ _ _ (fun _ _ => white_wf) hpl

/-! Concrete fixtures for witnesses: a trivial resampling kernel and small
concrete decoded images. -/

/-- A concrete resampling kernel (constant opaque black), used to instantiate
the resampling parameter in witnesses. -/
def rs0 : Resample := fun _ _ _ _ _ => ⟨0, 0, 0, 255⟩

/-- A one-pixel opaque red image. -/
def redImg : Img := ⟨1, 1, fun _ _ => ⟨255, 0, 0, 255⟩⟩

/-- The one-pixel red image decoded in RGBA mode. -/
def logoRed : Decoded := ⟨redImg, true⟩

/-- The composite of the red logo on a 2×1 canvas: no scaling, offsets 0. -/
def res0 : Composited := ⟨redImg, 0, 0, paste (imageNew 2 1 white) redImg 0 0⟩

/-- A 100×1 opaque image: far wider than tall, to exercise the degenerate
scaling path. -/
def logoThin : Decoded := ⟨⟨100, 1, fun _ _ => ⟨255, 0, 0, 255⟩⟩, true⟩

/-- C1: for every positive canvas width and height and every successfully
decoded source image, a successful conversion writes exactly w × h × 4 bytes
to the output file, regardless of the source image's dimensions. -/
theorem c1_output_length (resample : Resample) (logo0 : Decoded) (w h : ℕ)
    (bytes : List ℕ) (hw : 0 < w) (hh : 0 < h)
    (hok : convert_logo_to_raw resample logo0 w h = some bytes) :
    bytes.length = w * h * 4 := by
  unfold convert_logo_to_raw at hok
  cases hc : composite resample logo0 w h with
  | none => rw [hc] at hok; exact absurd hok (by simp)
  | some res =>
    rw [hc] at hok
    simp only [Option.map_some', Option.some.injEq] at hok
    rw [← hok]
    exact encodePixels_length _ w h

/-- Witness for C1 at a concrete input: the red 1×1 logo on a 2×1 canvas
produces 2 × 1 × 4 = 8 bytes. -/
theorem c1_witness :
    ([0, 0, 255, 0, 255, 255, 255, 0] : List ℕ).length = 2 * 1 * 4 :=
  c1_output_length rs0 logoRed 2 1 _ (by norm_num) (by norm_num) rfl

/-- C3: scaling happens exactly when the source exceeds the canvas in either
dimension; the scaled dimensions come from the scale factor
min(w / src_w, h / src_h) × 0.8 and stay within the canvas; a source that
already fits is kept at native resolution. -/
theorem c3_scaling_policy (resample : Resample) (logo0 : Decoded) (w h : ℕ)
    (res : Composited) (hc : composite resample logo0 w h = some res) :
    ((rgbaLogo logo0).width ≤ w ∧ (rgbaLogo logo0).height ≤ h →
        res.placed = rgbaLogo logo0) ∧
    (w < (rgbaLogo logo0).width ∨ h < (rgbaLogo logo0).height →
        res.placed.width = scaledDim (rgbaLogo logo0).width
            (scaleFactor (rgbaLogo logo0).width (rgbaLogo logo0).height w h) ∧
        res.placed.height = scaledDim (rgbaLogo logo0).height
            (scaleFactor (rgbaLogo logo0).width (rgbaLogo logo0).height w h) ∧
        res.placed.width ≤ w ∧ res.placed.height ≤ h) ∧
    scaleFactor (rgbaLogo logo0).width (rgbaLogo logo0).height w h =
      min ((w : ℚ) / ((rgbaLogo logo0).width : ℚ))
        ((h : ℚ) / ((rgbaLogo logo0).height : ℚ)) * (4 / 5) := by
  obtain ⟨-, -, -, hcase⟩ := composite_inv hc
  have hle := placed_le hc
  refine ⟨?_, ?_, rfl⟩
  · intro hfit
    rcases hcase with ⟨-, heq⟩ | ⟨hbig, -⟩
    · exact heq
    · omega
  · intro hbig
    rcases hcase with ⟨hfit, -⟩ | ⟨-, hw', hh', -, -, -⟩
    · exact absurd hbig hfit
    · exact ⟨hw', hh', hle.1, hle.2⟩

/-- Witness for C3 at a concrete input: the 1×1 logo fits the 2×1 canvas and
is kept at native resolution. -/
theorem c3_witness : res0.placed = rgbaLogo logoRed :=
  (c3_scaling_policy rs0 logoRed 2 1 res0 rfl).1 (by constructor <;> decide)

/-- C4: the placement offsets are floor((w − placed_width) / 2) and
floor((h − placed_height) / 2) on the possibly-resized dimensions, and both
are nonnegative because after the scaling step the placed image fits the
canvas. -/
theorem c4_centering (resample : Resample) (logo0 : Decoded) (w h : ℕ)
    (res : Composited) (hc : composite resample logo0 w h = some res) :
    res.x = Int.fdiv ((w : ℤ) - (res.placed.width : ℤ)) 2 ∧
    res.y = Int.fdiv ((h : ℤ) - (res.placed.height : ℤ)) 2 ∧
    res.placed.width ≤ w ∧ res.placed.height ≤ h ∧
    0 ≤ res.x ∧ 0 ≤ res.y := by
  obtain ⟨-, hx, hy, -⟩ := composite_inv hc
  obtain ⟨h1, h2⟩ := placed_le hc
  obtain ⟨h3, h4⟩ := offsets_nonneg hc
  exact ⟨hx, hy, h1, h2, h3, h4⟩

/-- Witness for C4 at a concrete input: both offsets of the red-logo
composite are nonnegative. -/
theorem c4_witness : 0 ≤ res0.x ∧ 0 ≤ res0.y :=
  (c4_centering rs0 logoRed 2 1 res0 rfl).2.2.2.2

/-- C8: the pipeline is deterministic in its decoded input and parameters:
two runs with the same decoded source, resampling kernel and canvas
dimensions produce byte-identical output. -/
theorem c8_deterministic (resample : Resample) (logo0 logo0' : Decoded)
    (w h : ℕ) (heq : logo0 = logo0') :
    convert_logo_to_raw resample logo0 w h =
      convert_logo_to_raw resample logo0' w h := by
  rw [heq]

/-- Witness for C8 at a concrete input. -/
theorem c8_witness :
    convert_logo_to_raw rs0 logoRed 2 1 = convert_logo_to_raw rs0 logoRed 2 1 :=
  c8_deterministic rs0 logoRed logoRed 2 1 rfl

/-- C9: when the input path does not exist, main exits early with a nonzero
status and writes nothing to the output file; quantifying over the
conversion result shows the early exit is independent of any decoding or
processing. -/
theorem c9_missing_input (conv : Option (List ℕ)) :
    main false conv = (1, none) ∧ (main false conv).1 ≠ 0 := by
  constructor <;> simp [main]

/-- C10: the resized dimensions truncate each product toward zero
independently, so a source exceeding the canvas whose truncated scaled width
or height is zero makes the resize step fail and the conversion abort with
no output bytes. -/
theorem c10_degenerate_scale (resample : Resample) (logo0 : Decoded)
    (w h : ℕ)
    (hbig : w < (rgbaLogo logo0).width ∨ h < (rgbaLogo logo0).height)
    (hzero : scaledDim (rgbaLogo logo0).width
        (scaleFactor (rgbaLogo logo0).width (rgbaLogo logo0).height w h) = 0 ∨
      scaledDim (rgbaLogo logo0).height
        (scaleFactor (rgbaLogo logo0).width (rgbaLogo logo0).height w h)
          = 0) :
    convert_logo_to_raw resample logo0 w h = none := by
  unfold convert_logo_to_raw composite placedLogo pilResize
  rw [if_pos hbig, if_pos hzero]
  rfl

/-- Witness for C10 at a concrete input: a 100×1 source on a 4×4 canvas has
truncated scaled height int(1 × min(4/100, 4/1) × 0.8) = 0, and the
conversion yields no output. -/
theorem c10_witness : convert_logo_to_raw rs0 logoThin 4 4 = none := by
  apply c10_degenerate_scale rs0 logoThin 4 4 (Or.inl (by decide))
  refine Or.inr ?_
  show scaledDim 1 (scaleFactor 100 1 4 4) = 0
  rw [scaledDim,
    pyInt_eq_floor _ (by simpa using scaleFactor_nonneg 100 1 4 4)]
  rw [scaleFactor]
  norm_num [min_def]

/-! Pointwise description of paste. -/

theorem paste_pix_in (bg logo : Img) (x y : ℤ) (c r : ℕ)
    (hin : x ≤ (c : ℤ) ∧ (c : ℤ) < x + logo.width ∧
      y ≤ (r : ℤ) ∧ (r : ℤ) < y + logo.height) :
    (paste bg logo x y).pix c r =
      ⟨blend (logo.pix ((c : ℤ) - x).toNat ((r : ℤ) - y).toNat).a
          (bg.pix c r).r (logo.pix ((c : ℤ) - x).toNat ((r : ℤ) - y).toNat).r,
        blend (logo.pix ((c : ℤ) - x).toNat ((r : ℤ) - y).toNat).a
          (bg.pix c r).g (logo.pix ((c : ℤ) - x).toNat ((r : ℤ) - y).toNat).g,
        blend (logo.pix ((c : ℤ) - x).toNat ((r : ℤ) - y).toNat).a
          (bg.pix c r).b (logo.pix ((c : ℤ) - x).toNat ((r : ℤ) - y).toNat).b,
        blend (logo.pix ((c : ℤ) - x).toNat ((r : ℤ) - y).toNat).a
          (bg.pix c r).a
          (logo.pix ((c : ℤ) - x).toNat ((r : ℤ) - y).toNat).a⟩ := by
  unfold paste
  dsimp only
  rw [if_pos hin]

theorem paste_pix_out (bg logo : Img) (x y : ℤ) (c r : ℕ)
    (hout : ¬(x ≤ (c : ℤ) ∧ (c : ℤ) < x + logo.width ∧
      y ≤ (r : ℤ) ∧ (r : ℤ) < y + logo.height)) :
    (paste bg logo x y).pix c r = bg.pix c r := by
  unfold paste
  dsimp only
  rw [if_neg hout]

/-! Well-formedness of the concrete fixtures. -/

theorem rs0_wf : ResampleWf rs0 :=
  fun _ _ _ _ _ => ⟨Nat.zero_le _, Nat.zero_le _, Nat.zero_le _, le_refl _⟩

theorem logoRed_wf : logoRed.img.Wf :=
  fun _ _ => ⟨le_refl _, Nat.zero_le _, Nat.zero_le _, le_refl _⟩

/-- C2: the canvas is emitted in row-major order as 4-byte little-endian
words; the word of the pixel at (col, row) sits at offset 4·(row·w + col),
its three low bytes are the blue, green and red channels, its top byte is
zero, and its value is (r << 16) | (g << 8) | b = 65536·r + 256·g + b. -/
theorem c2_pixel_encoding (resample : Resample) (logo0 : Decoded) (w h : ℕ)
    (res : Composited) (row col : ℕ) (hre : ResampleWf resample)
    (hwf : logo0.img.Wf) (hc : composite resample logo0 w h = some res)
    (hrow : row < h) (hcol : col < w) :
    convert_logo_to_raw resample logo0 w h =
      some (encodePixels (convertRGB res.canvas) w h) ∧
    (encodePixels (convertRGB res.canvas) w h)[4 * (row * w + col)]? =
      some (res.canvas.pix col row).b ∧
    (encodePixels (convertRGB res.canvas) w h)[4 * (row * w + col) + 1]? =
      some (res.canvas.pix col row).g ∧
    (encodePixels (convertRGB res.canvas) w h)[4 * (row * w + col) + 2]? =
      some (res.canvas.pix col row).r ∧
    (encodePixels (convertRGB res.canvas) w h)[4 * (row * w + col) + 3]? =
      some 0 ∧
    pixelValue (res.canvas.pix col row).r (res.canvas.pix col row).g
        (res.canvas.pix col row).b =
      65536 * (res.canvas.pix col row).r + 256 * (res.canvas.pix col row).g +
        (res.canvas.pix col row).b := by
  obtain ⟨hr255, hg255, hb255, -⟩ := (composite_wf hre hwf hc).1 col row
  have hv : pixelValue (res.canvas.pix col row).r (res.canvas.pix col row).g
      (res.canvas.pix col row).b =
      65536 * (res.canvas.pix col row).r + 256 * (res.canvas.pix col row).g +
        (res.canvas.pix col row).b :=
    pixelValue_eq hr255 hg255 hb255
  have hvlt : pixelValue (res.canvas.pix col row).r (res.canvas.pix col row).g
      (res.canvas.pix col row).b < 16777216 :=
    pixelValue_lt hr255 hg255 hb255
  have hbyte : ∀ j, j < 4 →
      (encodePixels (convertRGB res.canvas) w h)[4 * (row * w + col) + j]? =
        (packLE (pixelValue (res.canvas.pix col row).r
          (res.canvas.pix col row).g (res.canvas.pix col row).b))[j]? := by
    intro j hj
    simpa [convertRGB] using
      encodePixels_getElem (convertRGB res.canvas) w h row col j hrow hcol hj
  have hb0 := hbyte 0 (by norm_num)
  have hb1 := hbyte 1 (by norm_num)
  have hb2 := hbyte 2 (by norm_num)
  have hb3 := hbyte 3 (by norm_num)
  rw [Nat.add_zero] at hb0
  refine ⟨?_, ?_, ?_, ?_, ?_, hv⟩
  · unfold convert_logo_to_raw
    rw [hc]
    rfl
  · rw [hb0]
    simp only [packLE, List.getElem?_cons_zero, Option.some.injEq]
    rw [hv]
    omega
  · rw [hb1]
    simp only [packLE, List.getElem?_cons_succ, List.getElem?_cons_zero,
      Option.some.injEq]
    rw [hv]
    omega
  · rw [hb2]
    simp only [packLE, List.getElem?_cons_succ, List.getElem?_cons_zero,
      Option.some.injEq]
    rw [hv]
    omega
  · rw [hb3]
    simp only [packLE, List.getElem?_cons_succ, List.getElem?_cons_zero,
      Option.some.injEq]
    omega

/-- Witness for C2 at a concrete input: the top byte of the first emitted
word of the red-logo composite is zero. -/
theorem c2_witness :
    (encodePixels (convertRGB res0.canvas) 2 1)[4 * (0 * 2 + 0) + 3]? =
      some 0 :=
  (c2_pixel_encoding rs0 logoRed 2 1 res0 0 0 rs0_wf logoRed_wf rfl
    (by norm_num) (by norm_num)).2.2.2.2.1

/-- C6: every canvas pixel outside the placed image's footprint stays pure
white, and its emitted word decodes to (255, 255, 255) with top byte zero. -/
theorem c6_background_white (resample : Resample) (logo0 : Decoded)
    (w h : ℕ) (res : Composited) (col row : ℕ)
    (hc : composite resample logo0 w h = some res)
    (hcol : col < w) (hrow : row < h)
    (hout : ¬(res.x ≤ (col : ℤ) ∧ (col : ℤ) < res.x + res.placed.width ∧
      res.y ≤ (row : ℤ) ∧ (row : ℤ) < res.y + res.placed.height)) :
    res.canvas.pix col row = white ∧
    (encodePixels (convertRGB res.canvas) w h)[4 * (row * w + col)]? =
      some 255 ∧
    (encodePixels (convertRGB res.canvas) w h)[4 * (row * w + col) + 1]? =
      some 255 ∧
    (encodePixels (convertRGB res.canvas) w h)[4 * (row * w + col) + 2]? =
      some 255 ∧
    (encodePixels (convertRGB res.canvas) w h)[4 * (row * w + col) + 3]? =
      some 0 := by
  obtain ⟨hcv, -, -, -⟩ := composite_inv hc
  have hpix : res.canvas.pix col row = white := by
    rw [hcv]
    exact paste_pix_out _ _ _ _ col row hout
  have hbyte : ∀ j, j < 4 →
      (encodePixels (convertRGB res.canvas) w h)[4 * (row * w + col) + j]? =
        (packLE (pixelValue 255 255 255))[j]? := by
    intro j hj
    have := encodePixels_getElem (convertRGB res.canvas) w h row col j hrow
      hcol hj
    simpa [convertRGB, hpix, white] using this
  have hb0 := hbyte 0 (by norm_num)
  rw [Nat.add_zero] at hb0
  have hval : pixelValue 255 255 255 = 16777215 := by decide
  refine ⟨hpix, ?_, ?_, ?_, ?_⟩
  · rw [hb0, hval]
    rfl
  · rw [hbyte 1 (by norm_num), hval]
    rfl
  · rw [hbyte 2 (by norm_num), hval]
    rfl
  · rw [hbyte 3 (by norm_num), hval]
    rfl

/-- Witness for C6 at a concrete input: on the 2×1 canvas the pixel at
column 1 lies outside the 1×1 logo's footprint and is white. -/
theorem c6_witness : res0.canvas.pix 1 0 = white :=
  (c6_background_white rs0 logoRed 2 1 res0 1 0 rfl (by norm_num)
    (by norm_num) (by decide)).1

/-- C7: a placed-image pixel with alpha 0 leaves the corresponding canvas
pixel pure white whatever its colour channels hold, and a source decoded
without an alpha channel is synthesized fully opaque, so compositing is
always alpha-aware. -/
theorem c7_alpha_zero (resample : Resample) (logo0 : Decoded) (w h : ℕ)
    (res : Composited) (c r : ℕ)
    (hc : composite resample logo0 w h = some res)
    (hcw : c < res.placed.width) (hrh : r < res.placed.height)
    (ha : (res.placed.pix c r).a = 0) :
    res.canvas.pix (res.x.toNat + c) (res.y.toNat + r) = white ∧
    (∀ img : Img, ∀ c' r' : ℕ, ((convertRGBA img).pix c' r').a = 255) := by
  refine ⟨?_, fun img c' r' => rfl⟩
  obtain ⟨hcv, -, -, -⟩ := composite_inv hc
  obtain ⟨hx0, hy0⟩ := offsets_nonneg hc
  have hin : res.x ≤ ((res.x.toNat + c : ℕ) : ℤ) ∧
      ((res.x.toNat + c : ℕ) : ℤ) < res.x + res.placed.width ∧
      res.y ≤ ((res.y.toNat + r : ℕ) : ℤ) ∧
      ((res.y.toNat + r : ℕ) : ℤ) < res.y + res.placed.height := by
    push_cast
    omega
  rw [hcv, paste_pix_in _ _ _ _ _ _ hin]
  have hcc : (((res.x.toNat + c : ℕ) : ℤ) - res.x).toNat = c := by omega
  have hrr : (((res.y.toNat + r : ℕ) : ℤ) - res.y).toNat = r := by omega
  rw [hcc, hrr, ha]
  show (⟨blend 0 255 _, blend 0 255 _, blend 0 255 _, blend 0 255 _⟩ : RGBA)
    = white
  rw [blend_zero_mask, blend_zero_mask, blend_zero_mask, blend_zero_mask]
  rfl

/-- A one-pixel fully transparent image with nonwhite colour channels. -/
def imgT : Img := ⟨1, 1, fun _ _ => ⟨7, 8, 9, 0⟩⟩

/-- The transparent one-pixel image decoded in RGBA mode. -/
def logoT : Decoded := ⟨imgT, true⟩

/-- The composite of the transparent logo on a 2×1 canvas. -/
def resT : Composited := ⟨imgT, 0, 0, paste (imageNew 2 1 white) imgT 0 0⟩

/-- Witness for C7 at a concrete input: the canvas pixel under the
transparent source pixel is pure white despite its (7, 8, 9) colour. -/
theorem c7_witness : resT.canvas.pix (resT.x.toNat + 0) (resT.y.toNat + 0)
    = white :=
  (c7_alpha_zero rs0 logoT 2 1 resT 0 0 rfl (by decide) (by decide)
    rfl).1

/-! Fixtures for claim C5. -/

/-- A 2×2 opaque red image. -/
def sqImg : Img := ⟨2, 2, fun _ _ => ⟨255, 0, 0, 255⟩⟩

/-- The 2×2 image decoded in RGBA mode. -/
def logoSquare : Decoded := ⟨sqImg, true⟩

/-- The composite of the 2×2 logo on a 2×2 canvas: it fits exactly, so no
scaling happens and the offsets are zero. -/
def resSq : Composited := ⟨sqImg, 0, 0, paste (imageNew 2 2 white) sqImg 0 0⟩

/-- Counterexample to C5 as stated: a 2×2 source on a 2×2 canvas fits, is
left unscaled, and is placed at offset (0, 0), so its bounding box touches
all four canvas edges rather than lying strictly inside. -/
theorem c5_counterexample :
    composite rs0 logoSquare 2 2 = some resSq ∧
    ¬(0 < resSq.x ∧ 0 < resSq.y ∧ resSq.x + resSq.placed.width < 2 ∧
      resSq.y + resSq.placed.height < 2) :=
  ⟨rfl, by decide⟩

/-- C5 (amended): when the source exceeds the canvas (so the 80%-margin
scaling step runs) and the canvas is at least 6×6, the placed logo's
bounding box lies strictly inside the canvas; a source that already fits is
pasted unscaled and may touch or coincide with the canvas edges.  The bound
6 is tight: a 6×6 source on a 5×5 canvas resizes to 4×4 and is placed at
offset 0, touching the edge. -/
theorem c5_amended_margin (resample : Resample) (logo0 : Decoded) (w h : ℕ)
    (res : Composited) (hc : composite resample logo0 w h = some res)
    (hbig : w < (rgbaLogo logo0).width ∨ h < (rgbaLogo logo0).height)
    (hw : 6 ≤ w) (hh : 6 ≤ h) :
    0 < res.x ∧ 0 < res.y ∧
    res.x + res.placed.width < w ∧ res.y + res.placed.height < h := by
  obtain ⟨-, hx, hy, hcase⟩ := composite_inv hc
  rcases hcase with ⟨hfit, -⟩ | ⟨-, hweq, hheq, hnw, hnh, -⟩
  · exact absurd hbig hfit
  · have hlw : 0 < (rgbaLogo logo0).width := by
      rcases Nat.eq_zero_or_pos (rgbaLogo logo0).width with h0 | h0
      · rw [h0, scaledDim_zero] at hweq
        exact absurd hweq hnw
      · exact h0
    have hlh : 0 < (rgbaLogo logo0).height := by
      rcases Nat.eq_zero_or_pos (rgbaLogo logo0).height with h0 | h0
      · rw [h0, scaledDim_zero] at hheq
        exact absurd hheq hnh
      · exact h0
    have hbw := scaledDim_width_bound (rgbaLogo logo0).width
      (rgbaLogo logo0).height w h hlw
    have hbh := scaledDim_height_bound (rgbaLogo logo0).width
      (rgbaLogo logo0).height w h hlh
    rw [← hweq] at hbw
    rw [← hheq] at hbh
    have hxe : res.x = ((w : ℤ) - res.placed.width) / 2 := by
      rw [hx, Int.fdiv_eq_ediv _ (by norm_num)]
    have hye : res.y = ((h : ℤ) - res.placed.height) / 2 := by
      rw [hy, Int.fdiv_eq_ediv _ (by norm_num)]
    omega

/-- A 20×20 opaque red image. -/
def img2020 : Img := ⟨20, 20, fun _ _ => ⟨255, 0, 0, 255⟩⟩

/-- The 20×20 image decoded in RGBA mode. -/
def logo2020 : Decoded := ⟨img2020, true⟩

/-- The 20×20 logo resized to 8×8 by rs0. -/
def placed8 : Img := ⟨8, 8, rs0 img2020 8 8⟩

/-- The composite of the 20×20 logo on a 10×10 canvas: scale
min(10/20, 10/20) × 0.8 = 0.4, resized to 8×8, placed at (1, 1). -/
def res2020 : Composited :=
  ⟨placed8, 1, 1, paste (imageNew 10 10 white) placed8 1 1⟩

theorem scaledDim_2020 : scaledDim 20 (scaleFactor 20 20 10 10) = 8 := by
  rw [scaledDim,
    pyInt_eq_floor _ (by
      have := scaleFactor_nonneg 20 20 10 10
      positivity)]
  rw [scaleFactor]
  norm_num [min_def]
  rfl

theorem composite_2020 : composite rs0 logo2020 10 10 = some res2020 := by
  unfold composite placedLogo
  have hbig : 10 < (rgbaLogo logo2020).width ∨
      10 < (rgbaLogo logo2020).height := Or.inl (by decide)
  rw [if_pos hbig]
  show (match pilResize rs0 img2020
      (scaledDim 20 (scaleFactor 20 20 10 10))
      (scaledDim 20 (scaleFactor 20 20 10 10)) with
    | none => none
    | some logo =>
        some ⟨logo, Int.fdiv ((10 : ℤ) - (logo.width : ℤ)) 2,
          Int.fdiv ((10 : ℤ) - (logo.height : ℤ)) 2,
          paste (imageNew 10 10 white) logo
            (Int.fdiv ((10 : ℤ) - (logo.width : ℤ)) 2)
            (Int.fdiv ((10 : ℤ) - (logo.height : ℤ)) 2)⟩) = some res2020
  rw [scaledDim_2020]
  rfl

/-- Witness for the amended C5 at a concrete input: the 20×20 logo on a
10×10 canvas is resized to 8×8 and sits strictly inside at (1, 1). -/
theorem c5_witness :
    0 < res2020.x ∧ 0 < res2020.y ∧
    res2020.x + res2020.placed.width < 10 ∧
    res2020.y + res2020.placed.height < 10 :=
  c5_amended_margin rs0 logo2020 10 10 res2020 composite_2020
    (Or.inl (by decide)) (by norm_num) (by norm_num)

end LogoRaw
